import Mathlib

set_option linter.unusedSectionVars false
set_option linter.unusedVariables false

/-!
Verification development for the Hyperspeedcube-timer core:
the generic twisty-puzzle algebra (`src/common.rs`) and the move
controller (`src/puzzle/controller.rs`).

Modelling conventions:
* `f32` values are modelled by the idealized type `Fl` below: exact
  rationals extended with the two infinities and a not-a-number value.
  Rounding is not modelled; comparison semantics follow IEEE-754
  (comparisons involving `Fl.nan` are false).
* Rust `Vec` is a `List` whose last element is the top of the stack
  (`push` appends, `pop` removes the last element); `VecDeque` is a
  `List` whose head is the front of the queue.
* `Result<(), &'static str>` is modelled by a `Bool` success flag
  (the error text is irrelevant to every property considered here).
* A Rust `panic!`/`assert!`/`expect` is modelled by the operation
  returning `none`.
-/

/-- Idealized `f32`: an exact rational, one of the two infinities, or NaN. -/
inductive Fl where
  | fin : ℚ → Fl
  | pinf : Fl
  | ninf : Fl
  | nan : Fl
deriving DecidableEq

namespace Fl

/-- IEEE-style `<=` on idealized floats: any comparison with NaN is false. -/
def fle : Fl → Fl → Bool
  | nan, _ => false
  | _, nan => false
  | ninf, _ => true
  | _, ninf => false
  | _, pinf => true
  | pinf, _ => false
  | fin x, fin y => decide (x ≤ y)

/-- IEEE-style `<` on idealized floats: any comparison with NaN is false. -/
def flt : Fl → Fl → Bool
  | nan, _ => false
  | _, nan => false
  | ninf, ninf => false
  | ninf, _ => true
  | _, ninf => false
  | pinf, _ => false
  | fin _, pinf => true
  | fin x, fin y => decide (x < y)

/-- Idealized float addition. -/
def add : Fl → Fl → Fl
  | nan, _ => nan
  | _, nan => nan
  | pinf, ninf => nan
  | ninf, pinf => nan
  | pinf, _ => pinf
  | _, pinf => pinf
  | ninf, _ => ninf
  | _, ninf => ninf
  | fin x, fin y => fin (x + y)

/-- Idealized float multiplication. -/
def mul : Fl → Fl → Fl
  | nan, _ => nan
  | _, nan => nan
  | pinf, pinf => pinf
  | pinf, ninf => ninf
  | ninf, pinf => ninf
  | ninf, ninf => pinf
  | pinf, fin x => if x = 0 then nan else if 0 < x then pinf else ninf
  | fin x, pinf => if x = 0 then nan else if 0 < x then pinf else ninf
  | ninf, fin x => if x = 0 then nan else if 0 < x then ninf else pinf
  | fin x, ninf => if x = 0 then nan else if 0 < x then ninf else pinf
  | fin x, fin y => fin (x * y)

/-- Idealized float division. -/
def div : Fl → Fl → Fl
  | nan, _ => nan
  | _, nan => nan
  | pinf, pinf => nan
  | pinf, ninf => nan
  | ninf, pinf => nan
  | ninf, ninf => nan
  | pinf, fin x => if 0 ≤ x then pinf else ninf
  | ninf, fin x => if 0 ≤ x then ninf else pinf
  | fin _, pinf => fin 0
  | fin _, ninf => fin 0
  | fin x, fin y =>
    if y = 0 then (if x = 0 then nan else if 0 < x then pinf else ninf)
    else fin (x / y)

/-- Whether an idealized float is a finite number. -/
def isFinite : Fl → Bool
  | fin _ => true
  | _ => false

end Fl

/-! ### `update_geometry` twist-delta clamping (`controller.rs`)

`const MIN_TWIST_DELTA: f32 = 1.0 / 3.0;` and the clamping step

```rust
if !(0.0..MIN_TWIST_DELTA).contains(&twist_delta) {
    twist_delta = 1.0; // Instantly complete the twist.
}
```

`Range::contains` for floats is `start <= item && item < end`.
-/

/-- `MIN_TWIST_DELTA` from `controller.rs` (idealized as the exact rational). -/
def MIN_TWIST_DELTA : Fl := Fl.fin (1/3)

/-- `EXP_TWIST_FACTOR` from `controller.rs`. -/
def EXP_TWIST_FACTOR : Fl := Fl.fin (1/2)

/-- The twist-delta clamping step of `PuzzleController::update_geometry`:
keep `twist_delta` only when `0.0 <= twist_delta && twist_delta < MIN_TWIST_DELTA`,
otherwise replace it by `1.0`. -/
def clampTwistDelta (x : Fl) : Fl :=
  if Fl.fle (Fl.fin 0) x && Fl.flt x MIN_TWIST_DELTA then x else Fl.fin 1

/-- The degeneracy predicate exactly as the claim states it: the increment is
"not finite, negative, or below the minimum-no-op threshold". -/
def specDegenerateIncrement (x : Fl) : Bool :=
  !x.isFinite || Fl.flt x (Fl.fin 0) || Fl.flt x MIN_TWIST_DELTA

/-- The amended degeneracy predicate: the increment is not finite, negative,
or at least `MIN_TWIST_DELTA`. -/
def amendedDegenerateIncrement (x : Fl) : Bool :=
  !x.isFinite || Fl.flt x (Fl.fin 0) || Fl.fle MIN_TWIST_DELTA x

/-! ### The generic puzzle algebra (`src/common.rs`)

The source is generic over a `PuzzleTrait` whose associated types satisfy the
contract of spec section 4.1: `Orientation` is a finite-index group `G`
(composition `*`, identity = solved, inverse `rev`) acting on the set of
piece locations `P`.  We embed a puzzle state as a total map `P → G`
(each piece location holds the orientation of the piece sitting there),
with `G` an arbitrary group and `P` an arbitrary finite type with a
`G`-action, exactly the contract the generic code assumes. -/

section PuzzleAlgebra

variable {G P : Type} [Group G] [MulAction G P] [DecidableEq P]

/-- Write orientation `v` at piece location `p` (Rust `*self.get_piece_mut(p) = v`). -/
def updateP (s : P → G) (p : P) (v : G) : P → G :=
  fun q => if q = p then v else s q

/-- `PuzzleTrait::swap` from `common.rs`:
```rust
let tmp = *self.get_piece(pos1);
*self.get_piece_mut(pos1) = rot * *self.get_piece(pos2);
*self.get_piece_mut(pos2) = rot.rev() * tmp;
```
The two writes happen in this order, so if `pos1 = pos2` the second wins. -/
def swapP (s : P → G) (pos1 pos2 : P) (rot : G) : P → G :=
  let tmp := s pos1
  updateP (updateP s pos1 (rot * s pos2)) pos2 (rot⁻¹ * tmp)

/-- The loop body of `PuzzleTrait::cycle`, with explicit fuel standing in for
the unbounded Rust `loop` (the loop terminates within `Fintype.card P`
iterations; `cycleP` supplies that much fuel).  `r` is the already-reversed
rotation (`let rot = rot.rev();` in the source). -/
def cycleAux (start : P) (r : G) : (P → G) → P → ℕ → (P → G)
  | s, _, 0 => s
  | s, prev, fuel+1 =>
    let current := r • prev
    if current = start then s
    else cycleAux start r (swapP s current prev r) current fuel

/-- `PuzzleTrait::cycle` from `common.rs`:
```rust
let rot = rot.rev();
let mut prev = start;
loop {
    let current = rot * prev;
    if current == start { break; }
    self.swap(current, prev, rot);
    prev = current;
}
``` -/
def cycleP [Fintype P] (s : P → G) (start : P) (rot : G) : P → G :=
  cycleAux start rot⁻¹ s start (Fintype.card P)

/-- A twist as in `TwistTrait`: a rotation (an orientation-group element)
plus the list of seed pieces (`initial_pieces`). -/
structure TwistDef (G P : Type) where
  rotation : G
  initial_pieces : List P

/-- `PuzzleTrait::twist` from `common.rs`:
```rust
for initial in twist.initial_pieces() {
    self.cycle(initial, twist.rotation())
}
``` -/
def twistP [Fintype P] (s : P → G) (t : TwistDef G P) : P → G :=
  t.initial_pieces.foldl (fun acc p => cycleP acc p t.rotation) s

/-- Modelled from the spec: `TwistTrait::rev` is only declared in
`common.rs` (its implementations live in the out-of-scope topology
modules).  Per the spec a twist is "seed pieces + a rotation" and `rev()`
is "the inverse twist", so the reverse twist has the inverse rotation and
the same seed set. -/
def revTwist (t : TwistDef G P) : TwistDef G P :=
  ⟨t.rotation⁻¹, t.initial_pieces⟩

/-- The solved puzzle state: every piece at the identity orientation
(`PuzzleTrait::new` / `Default`). -/
def solvedFun (G P : Type) [Group G] : P → G := fun _ => 1

/-- `p` and `q` lie in the same orbit generated by repeatedly applying
rotation `r` (the "generated set" of `TwistTrait::pieces`). -/
def sameOrbitN (r : G) (p q : P) : Prop := ∃ n : ℕ, r ^ n • p = q

/-- The seed-set invariant stated in `TwistTrait::initial_pieces`'s doc
comment: the seed list contains at most one piece per generated orbit. -/
def seedsDisjoint (t : TwistDef G P) : Prop :=
  List.Pairwise (fun p q => ¬ sameOrbitN t.rotation p q) t.initial_pieces

end PuzzleAlgebra

/-! ### Orbit and period machinery for the cycle algorithm -/

section OrbitMachinery

variable {G P : Type} [Group G] [MulAction G P] [DecidableEq P]

/-- The orbit walk: the piece reached from `start` after `i` applications of `r`. -/
def walkF (r : G) (start : P) (i : ℕ) : P := r ^ i • start

lemma walkF_zero (r : G) (start : P) : walkF r start 0 = start := by
  simp [walkF]

lemma walkF_succ (r : G) (start : P) (i : ℕ) :
    walkF r start (i + 1) = r • walkF r start i := by
  simp [walkF, pow_succ', mul_smul]

lemma walkF_add (r : G) (start : P) (i j : ℕ) :
    walkF r start (i + j) = r ^ i • walkF r start j := by
  simp [walkF, pow_add, mul_smul]

/-- Every piece has a positive period under the action of `r` (pigeonhole). -/
lemma exists_pos_period [Fintype P] (r : G) (p : P) :
    ∃ n : ℕ, 0 < n ∧ r ^ n • p = p := by
  obtain ⟨i, j, hne, heq⟩ := Fintype.exists_ne_map_eq_of_card_lt
    (fun i : Fin (Fintype.card P + 1) => r ^ (i : ℕ) • p) (by simp)
  rcases lt_or_gt_of_ne (fun h : (i : ℕ) = (j : ℕ) => hne (Fin.ext h)) with hij | hij
  · refine ⟨(j : ℕ) - (i : ℕ), by omega, ?_⟩
    have h2 : r ^ ((i : ℕ) + ((j : ℕ) - (i : ℕ))) • p = r ^ (i : ℕ) • p := by
      rw [show (i : ℕ) + ((j : ℕ) - (i : ℕ)) = (j : ℕ) by omega]
      exact heq.symm
    rw [pow_add, mul_smul] at h2
    exact smul_left_cancel _ h2
  · refine ⟨(i : ℕ) - (j : ℕ), by omega, ?_⟩
    have h2 : r ^ ((j : ℕ) + ((i : ℕ) - (j : ℕ))) • p = r ^ (j : ℕ) • p := by
      rw [show (j : ℕ) + ((i : ℕ) - (j : ℕ)) = (i : ℕ) by omega]
      exact heq
    rw [pow_add, mul_smul] at h2
    exact smul_left_cancel _ h2

/-- Every piece has a minimal positive period under the action of `r`. -/
lemma exists_minimal_period [Fintype P] (r : G) (p : P) :
    ∃ k : ℕ, 0 < k ∧ r ^ k • p = p ∧ ∀ m, 0 < m → m < k → r ^ m • p ≠ p := by
  obtain ⟨n, hn, hnp⟩ := exists_pos_period r p
  have hex : ∃ m, 0 < m ∧ r ^ m • p = p := ⟨n, hn, hnp⟩
  refine ⟨Nat.find hex, (Nat.find_spec hex).1, (Nat.find_spec hex).2, ?_⟩
  intro m hm hmk hc
  exact Nat.find_min hex hmk ⟨hm, hc⟩

variable {r : G} {start : P} {k : ℕ}

lemma period_mul (hkp : r ^ k • start = start) (c : ℕ) : r ^ (c * k) • start = start := by
  induction c with
  | zero => simp
  | succ c ih =>
    rw [Nat.succ_mul, pow_add, mul_smul, hkp, ih]

lemma period_mod (hkp : r ^ k • start = start) (hk1 : 0 < k) (n : ℕ) :
    r ^ n • start = r ^ (n % k) • start := by
  conv_lhs => rw [show n = n % k + (n / k) * k from by rw [Nat.mod_add_div' n k]]
  rw [pow_add, mul_smul, period_mul hkp]

/-- With `k` the minimal period of `start` under `r`, the walk is injective
below `k`. -/
lemma walkF_inj (hkm : ∀ m, 0 < m → m < k → r ^ m • start ≠ start)
    {i j : ℕ} (hi : i < k) (hj : j < k)
    (h : walkF r start i = walkF r start j) : i = j := by
  rcases Nat.lt_trichotomy i j with hij | hij | hij
  · exfalso
    have h2 : r ^ i • (r ^ (j - i) • start) = r ^ i • start := by
      rw [← mul_smul, ← pow_add, show i + (j - i) = j by omega]
      exact h.symm
    exact hkm (j - i) (by omega) (by omega) (smul_left_cancel _ h2)
  · exact hij
  · exfalso
    have h2 : r ^ j • (r ^ (i - j) • start) = r ^ j • start := by
      rw [← mul_smul, ← pow_add, show j + (i - j) = i by omega]
      exact h
    exact hkm (i - j) (by omega) (by omega) (smul_left_cancel _ h2)

/-- Orbit membership reduces to a walk index below the period. -/
lemma sameOrbitN_iff_exists_lt (hkp : r ^ k • start = start) (hk1 : 0 < k) (q : P) :
    sameOrbitN r start q ↔ ∃ i, i < k ∧ walkF r start i = q := by
  constructor
  · rintro ⟨n, hn⟩
    exact ⟨n % k, Nat.mod_lt _ hk1, by rw [walkF, ← period_mod hkp hk1, hn]⟩
  · rintro ⟨i, _, hi⟩
    exact ⟨i, hi⟩

lemma sameOrbitN_refl (p : P) : sameOrbitN r p p := ⟨0, by simp⟩

lemma sameOrbitN_trans {p q x : P} (h1 : sameOrbitN r p q) (h2 : sameOrbitN r q x) :
    sameOrbitN r p x := by
  obtain ⟨n, hn⟩ := h1
  obtain ⟨m, hm⟩ := h2
  exact ⟨m + n, by rw [pow_add, mul_smul, hn, hm]⟩

lemma sameOrbitN_step {p q : P} (h : sameOrbitN r p q) : sameOrbitN r p (r • q) := by
  obtain ⟨n, hn⟩ := h
  exact ⟨n + 1, by rw [pow_succ', mul_smul, hn]⟩

/-- Orbit symmetry over a finite piece set. -/
lemma sameOrbitN_symm [Fintype P] {p q : P} (h : sameOrbitN r p q) : sameOrbitN r q p := by
  obtain ⟨kp, hk1, hkp, _⟩ := exists_minimal_period r p
  obtain ⟨n, hn⟩ := h
  refine ⟨kp - n % kp, ?_⟩
  have hq : q = r ^ (n % kp) • p := by rw [← period_mod hkp hk1, hn]
  rw [hq, ← mul_smul, ← pow_add, show kp - n % kp + n % kp = kp from by
    have := Nat.mod_lt n hk1
    omega]
  exact hkp

lemma pow_smul_eq_iff_inv_pow_smul_eq {m : ℕ} {p : P} :
    r ^ m • p = p ↔ (r⁻¹) ^ m • p = p := by
  constructor
  · intro h
    conv_lhs => rw [← h]
    rw [inv_pow, inv_smul_smul]
  · intro h
    conv_lhs => rw [← h]
    rw [inv_pow, smul_inv_smul]

/-- Orbits under `r` and under `r⁻¹` coincide over a finite piece set. -/
lemma sameOrbitN_inv_iff [Fintype P] {p q : P} :
    sameOrbitN r⁻¹ p q ↔ sameOrbitN r p q := by
  have main : ∀ (g : G) (p q : P), sameOrbitN g p q → sameOrbitN g⁻¹ p q := by
    intro g p q h
    obtain ⟨kp, hk1, hkp, _⟩ := exists_minimal_period g p
    obtain ⟨n, hn⟩ := h
    have hq : q = g ^ (n % kp) • p := by rw [← period_mod hkp hk1, hn]
    refine ⟨kp - n % kp, ?_⟩
    rw [hq, inv_pow, inv_smul_eq_iff, ← mul_smul, ← pow_add,
      show kp - n % kp + n % kp = kp from by
        have := Nat.mod_lt n hk1
        omega]
    exact hkp.symm
  constructor
  · intro h
    have := main r⁻¹ p q ?_
    · rwa [inv_inv] at this
    · exact h
  · exact main r p q

end OrbitMachinery

/-! ### Characterization of the cycle algorithm -/

section CycleSpec

variable {G P : Type} [Group G] [MulAction G P] [DecidableEq P]

lemma swapP_apply (s : P → G) (p1 p2 : P) (rot : G) (x : P) :
    swapP s p1 p2 rot x =
      if x = p2 then rot⁻¹ * s p1 else if x = p1 then rot * s p2 else s x := by
  unfold swapP updateP
  by_cases h2 : x = p2
  · simp [h2]
  · by_cases h1 : x = p1 <;> simp [h1, h2]

/-- The effect of the remaining iterations of the cycle loop, entered with
`prev = walkF r start (j-1)`, on state `s` (for `1 ≤ j ≤ k`, `k` the minimal
period of `start` under `r`). -/
def cycleTail (s : P → G) (start : P) (r : G) (k j : ℕ) : P → G := fun q =>
  if q = walkF r start (k-1) then r ^ (k - j) * s (walkF r start (j-1))
  else if q ∈ (Finset.Ico (j-1) (k-1)).image (walkF r start) then r⁻¹ * s (r • q)
  else s q

variable {r : G} {start : P} {k : ℕ}

lemma cycleTail_step (hk1 : 0 < k) (hkp : r ^ k • start = start)
    (hkm : ∀ m, 0 < m → m < k → r ^ m • start ≠ start)
    {j : ℕ} (hj1 : 1 ≤ j) (hjk : j < k) (s : P → G) :
    cycleTail (swapP s (walkF r start j) (walkF r start (j-1)) r) start r k (j+1)
      = cycleTail s start r k j := by
  have hro : r • walkF r start (j-1) = walkF r start j := by
    rw [← walkF_succ, show j - 1 + 1 = j from by omega]
  funext q
  simp only [cycleTail, Nat.add_sub_cancel]
  by_cases hA : q = walkF r start (k-1)
  · have h1 : walkF r start j ≠ walkF r start (j-1) := fun h =>
      absurd (walkF_inj hkm (by omega) (by omega) h) (by omega)
    rw [if_pos hA, if_pos hA, swapP_apply, if_neg h1, if_pos rfl,
      ← mul_assoc, ← pow_succ, show k - (j+1) + 1 = k - j from by omega]
  · rw [if_neg hA, if_neg hA]
    by_cases hC : q = walkF r start (j-1)
    · have hBn : q ∉ (Finset.Ico j (k-1)).image (walkF r start) := by
        rw [Finset.mem_image]
        rintro ⟨i, hi, hiq⟩
        rw [Finset.mem_Ico] at hi
        have hw : walkF r start i = walkF r start (j-1) := by rw [hiq, hC]
        have := walkF_inj hkm (by omega) (by omega) hw
        omega
      have hCR : q ∈ (Finset.Ico (j-1) (k-1)).image (walkF r start) := by
        rw [Finset.mem_image]
        exact ⟨j-1, by rw [Finset.mem_Ico]; omega, hC.symm⟩
      rw [if_neg hBn, if_pos hCR, swapP_apply, if_pos hC, hC, hro]
    · by_cases hB : q ∈ (Finset.Ico j (k-1)).image (walkF r start)
      · obtain ⟨i, hi, hiq⟩ := Finset.mem_image.mp hB
        rw [Finset.mem_Ico] at hi
        have hBR : q ∈ (Finset.Ico (j-1) (k-1)).image (walkF r start) := by
          rw [Finset.mem_image]
          exact ⟨i, by rw [Finset.mem_Ico]; omega, hiq⟩
        have hrq : r • q = walkF r start (i+1) := by rw [← hiq, ← walkF_succ]
        have hs1 : walkF r start (i+1) ≠ walkF r start (j-1) := fun h =>
          absurd (walkF_inj hkm (by omega) (by omega) h) (by omega)
        have hs2 : walkF r start (i+1) ≠ walkF r start j := fun h =>
          absurd (walkF_inj hkm (by omega) (by omega) h) (by omega)
        rw [if_pos hB, if_pos hBR, hrq, swapP_apply, if_neg hs1, if_neg hs2]
      · have hBR : q ∉ (Finset.Ico (j-1) (k-1)).image (walkF r start) := by
          rw [Finset.mem_image]
          rintro ⟨i, hi, hiq⟩
          rw [Finset.mem_Ico] at hi
          rcases Nat.eq_or_lt_of_le hi.1 with h | h
          · exact hC (by rw [← hiq, ← h])
          · exact hB (by
              rw [Finset.mem_image]
              exact ⟨i, by rw [Finset.mem_Ico]; omega, hiq⟩)
        have hq1 : q ≠ walkF r start (j-1) := hC
        have hq2 : q ≠ walkF r start j := by
          intro h
          rcases Nat.lt_or_ge j (k-1) with hj | hj
          · exact hB (by
              rw [Finset.mem_image]
              exact ⟨j, by rw [Finset.mem_Ico]; omega, h.symm⟩)
          · exact hA (by rw [h, show j = k - 1 from by omega])
        rw [if_neg hB, if_neg hBR, swapP_apply, if_neg hq1, if_neg hq2]

lemma cycleTail_last (s : P → G) : cycleTail s start r k k = s := by
  funext q
  by_cases hA : q = walkF r start (k-1)
  · simp [cycleTail, hA, Nat.sub_self]
  · have : q ∉ (Finset.Ico (k-1) (k-1)).image (walkF r start) := by simp
    simp [cycleTail, hA, this]

lemma cycleAux_spec (hk1 : 0 < k) (hkp : r ^ k • start = start)
    (hkm : ∀ m, 0 < m → m < k → r ^ m • start ≠ start) :
    ∀ fuel j s, 1 ≤ j → j ≤ k → k - j < fuel →
      cycleAux start r s (walkF r start (j-1)) fuel = cycleTail s start r k j := by
  intro fuel
  induction fuel with
  | zero => intro j s hj1 hjk hfuel; omega
  | succ fuel ih =>
    intro j s hj1 hjk hfuel
    have hro : r • walkF r start (j-1) = walkF r start j := by
      rw [← walkF_succ, show j - 1 + 1 = j from by omega]
    rcases Nat.eq_or_lt_of_le hjk with hj | hj
    · have hcs : r • walkF r start (j-1) = start := by
        rw [hro, hj, walkF]
        exact hkp
      simp only [cycleAux]
      rw [if_pos hcs, hj, cycleTail_last]
    · have hcs : r • walkF r start (j-1) ≠ start := by
        rw [hro]
        intro h
        have h0 : walkF r start j = walkF r start 0 := by rw [walkF_zero, h]
        have := walkF_inj hkm (by omega) (by omega) h0
        omega
      simp only [cycleAux, if_neg hcs]
      rw [hro]
      have := ih (j+1) (swapP s (walkF r start j) (walkF r start (j-1)) r)
        (by omega) (by omega) (by omega)
      rw [show walkF r start (j+1-1) = walkF r start j from rfl] at this
      rw [this, cycleTail_step hk1 hkp hkm hj1 hj]

lemma period_le_card [Fintype P] (hk1 : 0 < k) (hkp : r ^ k • start = start)
    (hkm : ∀ m, 0 < m → m < k → r ^ m • start ≠ start) :
    k ≤ Fintype.card P := by
  have hinj : Set.InjOn (walkF r start) (Finset.range k) := by
    intro i hi j hj h
    simp only [Finset.coe_range, Set.mem_Iio] at hi hj
    exact walkF_inj hkm hi hj h
  calc k = (Finset.range k).card := (Finset.card_range k).symm
    _ = ((Finset.range k).image (walkF r start)).card :=
        (Finset.card_image_of_injOn hinj).symm
    _ ≤ Finset.univ.card := Finset.card_le_univ _
    _ = Fintype.card P := Finset.card_univ

/-- Full characterization of `cycleP`: hypotheses state that `k` is the
minimal period of `start` under `rot⁻¹` (the walk direction the loop uses). -/
lemma cycleP_eq_cycleTail [Fintype P] {rot : G} (hk1 : 0 < k)
    (hkp : rot⁻¹ ^ k • start = start)
    (hkm : ∀ m, 0 < m → m < k → rot⁻¹ ^ m • start ≠ start) (s : P → G) :
    cycleP s start rot = cycleTail s start rot⁻¹ k 1 := by
  have hcard := period_le_card hk1 hkp hkm
  have := cycleAux_spec hk1 hkp hkm (Fintype.card P) 1 s le_rfl hk1 (by omega)
  rw [show walkF rot⁻¹ start (1-1) = start from walkF_zero _ _] at this
  exact this

lemma cycleAux_off_orbit {q : P} (hq : ¬ sameOrbitN r start q) :
    ∀ fuel prev s, sameOrbitN r start prev → cycleAux start r s prev fuel q = s q := by
  intro fuel
  induction fuel with
  | zero => intros; rfl
  | succ fuel ih =>
    intro prev s hprev
    simp only [cycleAux]
    by_cases hcs : r • prev = start
    · rw [if_pos hcs]
    · rw [if_neg hcs, ih _ _ (sameOrbitN_step hprev), swapP_apply]
      have hq1 : q ≠ prev := fun h => hq (h ▸ hprev)
      have hq2 : q ≠ r • prev := fun h => hq (h ▸ sameOrbitN_step hprev)
      rw [if_neg hq1, if_neg hq2]

lemma cycleAux_congr_on_orbit :
    ∀ fuel prev (s s' : P → G), sameOrbitN r start prev →
      (∀ x, sameOrbitN r start x → s x = s' x) →
      ∀ q, sameOrbitN r start q →
        cycleAux start r s prev fuel q = cycleAux start r s' prev fuel q := by
  intro fuel
  induction fuel with
  | zero => intro prev s s' hprev hss q hqo; exact hss q hqo
  | succ fuel ih =>
    intro prev s s' hprev hss q hqo
    simp only [cycleAux]
    by_cases hcs : r • prev = start
    · rw [if_pos hcs, if_pos hcs]
      exact hss q hqo
    · rw [if_neg hcs, if_neg hcs]
      refine ih _ _ _ (sameOrbitN_step hprev) ?_ q hqo
      intro x hxo
      rw [swapP_apply, swapP_apply]
      by_cases hx2 : x = prev
      · rw [if_pos hx2, if_pos hx2, hss _ (sameOrbitN_step hprev)]
      · rw [if_neg hx2, if_neg hx2]
        by_cases hx1 : x = r • prev
        · rw [if_pos hx1, if_pos hx1, hss _ hprev]
        · rw [if_neg hx1, if_neg hx1, hss _ hxo]

end CycleSpec

/-! ### Locality and decomposition of `twistP` over seed orbits -/

section TwistDecomp

variable {G P : Type} [Group G] [MulAction G P] [DecidableEq P] [Fintype P]

lemma cycleP_off_orbit {rot : G} {startp q : P} (hq : ¬ sameOrbitN rot startp q)
    (s : P → G) : cycleP s startp rot q = s q := by
  have hq' : ¬ sameOrbitN rot⁻¹ startp q := fun h => hq (sameOrbitN_inv_iff.mp h)
  exact cycleAux_off_orbit hq' (Fintype.card P) startp s (sameOrbitN_refl startp)

lemma cycleP_congr_on_orbit {rot : G} {startp q : P} (s s' : P → G)
    (hss : ∀ x, sameOrbitN rot startp x → s x = s' x)
    (hq : sameOrbitN rot startp q) :
    cycleP s startp rot q = cycleP s' startp rot q := by
  have hq' : sameOrbitN rot⁻¹ startp q := sameOrbitN_inv_iff.mpr hq
  refine cycleAux_congr_on_orbit (Fintype.card P) startp s s' (sameOrbitN_refl startp)
    ?_ q hq'
  intro x hx
  exact hss x (sameOrbitN_inv_iff.mp hx)

lemma twistP_cons (s : P → G) (rot : G) (a : P) (rest : List P) :
    twistP s ⟨rot, a :: rest⟩ = twistP (cycleP s a rot) ⟨rot, rest⟩ := rfl

lemma twistP_off {rot : G} {seeds : List P} {q : P}
    (h : ∀ p ∈ seeds, ¬ sameOrbitN rot p q) (s : P → G) :
    twistP s ⟨rot, seeds⟩ q = s q := by
  induction seeds generalizing s with
  | nil => rfl
  | cons a rest ih =>
    rw [twistP_cons, ih (fun p hp => h p (List.mem_cons_of_mem a hp)),
      cycleP_off_orbit (h a (List.mem_cons_self a rest))]

lemma twistP_on_orbit {rot : G} {seeds : List P} {p q : P}
    (hdisj : List.Pairwise (fun x y => ¬ sameOrbitN rot x y) seeds)
    (hp : p ∈ seeds) (hq : sameOrbitN rot p q) (s : P → G) :
    twistP s ⟨rot, seeds⟩ q = cycleP s p rot q := by
  induction seeds generalizing s with
  | nil => cases hp
  | cons a rest ih =>
    rw [twistP_cons]
    rcases List.mem_cons.mp hp with hpa | hp'
    · subst hpa
      refine twistP_off ?_ (cycleP s p rot)
      intro x hx hsx
      exact (List.pairwise_cons.mp hdisj).1 x hx
        (sameOrbitN_trans hq (sameOrbitN_symm hsx))
    · have hax : ¬ sameOrbitN rot a p := (List.pairwise_cons.mp hdisj).1 p hp'
      rw [ih (List.pairwise_cons.mp hdisj).2 hp']
      refine cycleP_congr_on_orbit _ _ ?_ hq
      intro x hx
      refine cycleP_off_orbit ?_ s
      intro hc
      exact hax (sameOrbitN_trans hc (sameOrbitN_symm hx))

end TwistDecomp

/-! ### The twist/reverse-twist round trip on a single orbit -/

section RoundTrip

variable {G P : Type} [Group G] [MulAction G P] [DecidableEq P] [Fintype P]
variable {g : G} {p : P} {k : ℕ}

lemma walkF_cross (hkp : g ^ k • p = p) {i : ℕ} (hik : i ≤ k) :
    walkF g p i = walkF g⁻¹ p (k - i) := by
  rw [walkF, walkF, inv_pow, eq_inv_smul_iff, ← mul_smul, ← pow_add,
    show k - i + i = k from by omega, hkp]

lemma sOne_top (hk1 : 0 < k) :
    cycleTail (solvedFun G P) p g⁻¹ k 1 (walkF g⁻¹ p (k-1)) = (g⁻¹)^(k-1) := by
  simp [cycleTail, solvedFun]

lemma sOne_mid (hkm : ∀ m, 0 < m → m < k → (g⁻¹) ^ m • p ≠ p) {i : ℕ}
    (hik : i < k - 1) :
    cycleTail (solvedFun G P) p g⁻¹ k 1 (walkF g⁻¹ p i) = g := by
  have hne : walkF g⁻¹ p i ≠ walkF g⁻¹ p (k-1) := fun h =>
    absurd (walkF_inj hkm (by omega) (by omega) h) (by omega)
  have hmem : walkF g⁻¹ p i ∈ (Finset.Ico (1-1) (k-1)).image (walkF g⁻¹ p) := by
    rw [Finset.mem_image]
    exact ⟨i, by rw [Finset.mem_Ico]; omega, rfl⟩
  simp only [cycleTail]
  rw [if_neg hne, if_pos hmem]
  simp [solvedFun]

/-- Applying `cycle` with rotation `g` and then with rotation `g⁻¹` from the
solved state returns every piece of the seed orbit to the identity, provided
the orbit length `k` satisfies `k = 1` or `g ^ k = 1`. -/
lemma roundtrip_single (hk1 : 0 < k) (hkp : (g⁻¹) ^ k • p = p)
    (hkm : ∀ m, 0 < m → m < k → (g⁻¹) ^ m • p ≠ p)
    (hcond : k = 1 ∨ g ^ k = 1) {q : P} (hq : sameOrbitN g p q) :
    cycleP (cycleP (solvedFun G P) p g) p g⁻¹ q = 1 := by
  have hkp' : g ^ k • p = p := pow_smul_eq_iff_inv_pow_smul_eq.mpr hkp
  have hkm' : ∀ m, 0 < m → m < k → g ^ m • p ≠ p := fun m hm hmk hc =>
    hkm m hm hmk (pow_smul_eq_iff_inv_pow_smul_eq.mp hc)
  have hs1 : cycleP (solvedFun G P) p g = cycleTail (solvedFun G P) p g⁻¹ k 1 :=
    cycleP_eq_cycleTail hk1 hkp hkm _
  have hs2 : cycleP (cycleTail (solvedFun G P) p g⁻¹ k 1) p g⁻¹
      = cycleTail (cycleTail (solvedFun G P) p g⁻¹ k 1) p g k 1 := by
    have h1 : (g⁻¹)⁻¹ ^ k • p = p := by rw [inv_inv]; exact hkp'
    have h2 : ∀ m, 0 < m → m < k → (g⁻¹)⁻¹ ^ m • p ≠ p := by
      intro m hm hmk
      rw [inv_inv]
      exact hkm' m hm hmk
    have := cycleP_eq_cycleTail hk1 h1 h2
      (cycleTail (solvedFun G P) p g⁻¹ k 1)
    rwa [inv_inv] at this
  rw [hs1, hs2]
  have e_top : cycleTail (solvedFun G P) p g⁻¹ k 1 (walkF g⁻¹ p (k-1))
      = (g⁻¹)^(k-1) := sOne_top hk1
  have e_mid : ∀ i, i < k - 1 →
      cycleTail (solvedFun G P) p g⁻¹ k 1 (walkF g⁻¹ p i) = g := fun i h =>
    sOne_mid hkm h
  obtain ⟨i, hik, hiq⟩ := (sameOrbitN_iff_exists_lt hkp' hk1 q).mp hq
  subst hiq
  generalize hS : cycleTail (solvedFun G P) p g⁻¹ k 1 = s1 at e_top e_mid ⊢
  rcases Nat.eq_or_lt_of_le hk1 with hk | hk2
  · -- k = 1: the orbit is a fixed point and both cycles are no-ops there
    have hk' : k = 1 := by omega
    subst hk'
    have hi0 : i = 0 := by omega
    subst hi0
    have hp1 : s1 p = 1 := by simpa [walkF_zero] using e_top
    simp [cycleTail, walkF_zero, hp1]
  · have hg : g ^ k = 1 := hcond.resolve_left (by omega)
    rcases Nat.lt_or_ge i (k-1) with hi | hi
    · have hne : walkF g p i ≠ walkF g p (k-1) := fun h =>
        absurd (walkF_inj hkm' (by omega) (by omega) h) (by omega)
      have hmem : walkF g p i ∈ (Finset.Ico (1-1) (k-1)).image (walkF g p) := by
        rw [Finset.mem_image]
        exact ⟨i, by rw [Finset.mem_Ico]; omega, rfl⟩
      simp only [cycleTail]
      rw [if_neg hne, if_pos hmem, ← walkF_succ,
        walkF_cross hkp' (show i + 1 ≤ k from by omega)]
      rcases Nat.eq_zero_or_pos i with hi0 | hi1
      · subst hi0
        rw [show k - (0+1) = k-1 from by omega, e_top, ← pow_succ',
          show k-1+1 = k from by omega, inv_pow, hg, inv_one]
      · rw [e_mid (k-(i+1)) (by omega)]
        exact inv_mul_cancel g
    · have hieq : i = k-1 := by omega
      subst hieq
      simp only [cycleTail]
      rw [if_pos trivial, show (1:ℕ) - 1 = 0 from rfl]
      have hp0 : s1 (walkF g p 0) = g := by
        rw [show walkF g p 0 = walkF g⁻¹ p 0 from by rw [walkF_zero, walkF_zero]]
        exact e_mid 0 (by omega)
      rw [hp0, ← pow_succ, show k-1+1 = k from by omega, hg]

end RoundTrip

/-! ### Claim C3: the twist round-trip property -/

/-- C3 (amended): for every twist `t` whose seed set contains at most one
piece per generated orbit, and such that each seed is either fixed by the
rotation or has an orbit whose length `n` satisfies `rotation ^ n = 1`,
applying `t` and then `rev(t)` (via `PuzzleTrait::twist`) to a solved puzzle
returns the puzzle to the solved state (every piece back at the identity
orientation). -/
theorem claim_C3_amended {G P : Type} [Group G] [MulAction G P] [DecidableEq P]
    [Fintype P] (t : TwistDef G P) (hdisj : seedsDisjoint t)
    (hord : ∀ p ∈ t.initial_pieces, t.rotation • p = p ∨
      ∃ n : ℕ, 0 < n ∧ t.rotation ^ n • p = p ∧
        (∀ m, 0 < m → m < n → t.rotation ^ m • p ≠ p) ∧ t.rotation ^ n = 1) :
    twistP (twistP (solvedFun G P) t) (revTwist t) = solvedFun G P := by
  obtain ⟨g, seeds⟩ := t
  have hdisj0 : List.Pairwise (fun x y => ¬ sameOrbitN g x y) seeds := hdisj
  funext q
  show twistP (twistP (solvedFun G P) ⟨g, seeds⟩) ⟨g⁻¹, seeds⟩ q = solvedFun G P q
  by_cases hq : ∃ p ∈ seeds, sameOrbitN g p q
  · obtain ⟨p, hp, hpo⟩ := hq
    have hdisj' : List.Pairwise (fun x y => ¬ sameOrbitN g⁻¹ x y) seeds :=
      hdisj0.imp (fun hab hc => hab (sameOrbitN_inv_iff.mp hc))
    have hpo' : sameOrbitN g⁻¹ p q := sameOrbitN_inv_iff.mpr hpo
    rw [twistP_on_orbit hdisj' hp hpo']
    have hcongr : cycleP (twistP (solvedFun G P) ⟨g, seeds⟩) p g⁻¹ q
        = cycleP (cycleP (solvedFun G P) p g) p g⁻¹ q := by
      refine cycleP_congr_on_orbit _ _ ?_ hpo'
      intro x hx
      exact twistP_on_orbit hdisj0 hp (sameOrbitN_inv_iff.mp hx) _
    rw [hcongr]
    obtain ⟨k, hk1, hkp, hkm⟩ := exists_minimal_period g⁻¹ p
    have hcond : k = 1 ∨ g ^ k = 1 := by
      rcases hord p hp with hfix | ⟨n, hn0, hnp, hnmin, hg1⟩
      · left
        have h1 : g⁻¹ ^ 1 • p = p := by
          rw [pow_one, inv_smul_eq_iff]
          exact hfix.symm
        have hle : k ≤ 1 := by
          by_contra h
          exact hkm 1 one_pos (by omega) h1
        omega
      · right
        have hnp' : g⁻¹ ^ n • p = p := pow_smul_eq_iff_inv_pow_smul_eq.mp hnp
        have hkn : k ≤ n := by
          by_contra h
          exact hkm n hn0 (by omega) hnp'
        have hnk : n ≤ k := by
          by_contra h
          exact hnmin k hk1 (by omega) (pow_smul_eq_iff_inv_pow_smul_eq.mpr hkp)
        have hnkeq : n = k := by omega
        rw [← hnkeq]
        exact hg1
    exact roundtrip_single hk1 hkp hkm hcond hpo
  · push_neg at hq
    have h2 : ∀ p' ∈ seeds, ¬ sameOrbitN g⁻¹ p' q := fun p' hp' hc =>
      hq p' hp' (sameOrbitN_inv_iff.mp hc)
    rw [twistP_off h2, twistP_off hq]

/-- Witness instance for the amended C3: the transposition `(0 1)` acting on
`Fin 5` with single seed `0`; the seed orbit has length 2 and the rotation
squares to the identity. -/
theorem claim_C3_amended_witness :
    seedsDisjoint (⟨Equiv.swap 0 1, [0]⟩ : TwistDef (Equiv.Perm (Fin 5)) (Fin 5)) ∧
    twistP (twistP (solvedFun (Equiv.Perm (Fin 5)) (Fin 5)) ⟨Equiv.swap 0 1, [0]⟩)
      (revTwist ⟨Equiv.swap 0 1, [0]⟩) = solvedFun (Equiv.Perm (Fin 5)) (Fin 5) := by
  have hdisj : seedsDisjoint
      (⟨Equiv.swap 0 1, [0]⟩ : TwistDef (Equiv.Perm (Fin 5)) (Fin 5)) := by
    simp [seedsDisjoint]
  refine ⟨hdisj, claim_C3_amended _ hdisj ?_⟩
  intro p hp
  have hp0 : p = 0 := by simpa using hp
  subst hp0
  right
  refine ⟨2, by omega, by decide, ?_, by decide⟩
  intro m hm1 hm2
  have hm : m = 1 := by omega
  subst hm
  decide

/-- Concrete counterexample rotation for C3: the permutation `(0 1)(2 3 4)`
of `Fin 5`, acting on pieces `Fin 5`. -/
def cexRot : Equiv.Perm (Fin 5) := Equiv.swap 0 1 * (Equiv.swap 2 3 * Equiv.swap 3 4)

/-- Concrete counterexample twist for C3: rotation `cexRot` with the single
seed piece `0` (whose generated orbit is `{0, 1}`, of length 2, while
`cexRot ^ 2 = (2 4 3) ≠ 1`). -/
def cexTwist : TwistDef (Equiv.Perm (Fin 5)) (Fin 5) := ⟨cexRot, [0]⟩

/-- C3 counterexample: `cexTwist` satisfies the claim's seed-set hypothesis
(one seed, so trivially at most one piece per orbit), yet applying it and
then its reverse to the solved puzzle does not return to the solved state:
piece `0` ends at a non-identity orientation (a 3-cycle moving sticker 2
to 3). -/
theorem claim_C3_counterexample :
    seedsDisjoint cexTwist ∧
      twistP (twistP (solvedFun (Equiv.Perm (Fin 5)) (Fin 5)) cexTwist)
        (revTwist cexTwist) ≠ solvedFun (Equiv.Perm (Fin 5)) (Fin 5) := by
  constructor
  · simp [seedsDisjoint, cexTwist]
  · intro h
    have h0 : ((twistP (twistP (solvedFun (Equiv.Perm (Fin 5)) (Fin 5)) cexTwist)
        (revTwist cexTwist)) 0) 2
        = (solvedFun (Equiv.Perm (Fin 5)) (Fin 5) 0) 2 := by rw [h]
    revert h0
    decide

/-! ### Claim C9: the `swap` primitive -/

/-- C9: for distinct pieces `pos1 ≠ pos2`, after `swap(pos1, pos2, rot)` the
orientation at `pos1` is `rot` composed with the previous orientation at
`pos2`, the orientation at `pos2` is `rev(rot)` composed with the previous
orientation at `pos1`, and every other piece is unchanged. -/
theorem claim_C9_swap {G P : Type} [Group G] [MulAction G P] [DecidableEq P]
    (s : P → G) (pos1 pos2 : P) (rot : G) (hne : pos1 ≠ pos2) :
    swapP s pos1 pos2 rot pos1 = rot * s pos2 ∧
    swapP s pos1 pos2 rot pos2 = rot⁻¹ * s pos1 ∧
    ∀ q, q ≠ pos1 → q ≠ pos2 → swapP s pos1 pos2 rot q = s q := by
  refine ⟨?_, ?_, ?_⟩
  · rw [swapP_apply, if_neg hne, if_pos rfl]
  · rw [swapP_apply, if_pos rfl]
  · intro q h1 h2
    rw [swapP_apply, if_neg h2, if_neg h1]

/-- Witness for C9 at a concrete instance: pieces `0 ≠ 1` in `Fin 3`,
orientations in `Perm (Fin 3)`. -/
theorem claim_C9_swap_witness :
    swapP (fun _ => (1 : Equiv.Perm (Fin 3))) (0 : Fin 3) 1 (Equiv.swap 0 1) 0
        = Equiv.swap 0 1 * (1 : Equiv.Perm (Fin 3)) ∧
    swapP (fun _ => (1 : Equiv.Perm (Fin 3))) (0 : Fin 3) 1 (Equiv.swap 0 1) 1
        = (Equiv.swap 0 1)⁻¹ * (1 : Equiv.Perm (Fin 3)) ∧
    swapP (fun _ => (1 : Equiv.Perm (Fin 3))) (0 : Fin 3) 1 (Equiv.swap 0 1) 2
        = 1 := by
  have h := claim_C9_swap (fun _ => (1 : Equiv.Perm (Fin 3))) (0 : Fin 3) 1
    (Equiv.swap 0 1) (by decide)
  exact ⟨h.1, h.2.1, h.2.2 2 (by decide) (by decide)⟩

/-! ### Claim C7: the twist-delta clamp in `update_geometry` -/

/-- C7 counterexample: the increment `1/6` is finite, non-negative and
*below* `MIN_TWIST_DELTA`, hence "degenerate" by the claim's wording, yet the
code keeps it unchanged (it is inside `0.0..MIN_TWIST_DELTA`) instead of
replacing it by `1.0`. -/
theorem claim_C7_counterexample :
    specDegenerateIncrement (Fl.fin (1/6)) = true ∧
    clampTwistDelta (Fl.fin (1/6)) = Fl.fin (1/6) ∧
    Fl.fin (1/6) ≠ Fl.fin 1 := by
  refine ⟨?_, ?_, ?_⟩
  · simp only [specDegenerateIncrement, Fl.flt, Fl.isFinite, MIN_TWIST_DELTA]
    rw [decide_eq_true (by norm_num : (1:ℚ)/6 < 1/3)]
    simp
  · simp only [clampTwistDelta, Fl.fle, Fl.flt, MIN_TWIST_DELTA]
    simp [decide_eq_true (by norm_num : (0:ℚ) ≤ 1/6),
      decide_eq_true (by norm_num : (1:ℚ)/6 < 1/3)]
    norm_num
  · intro h
    have h2 : (1:ℚ)/6 = 1 := Fl.fin.inj h
    norm_num at h2

/-- C7 (amended): in `update_geometry` the computed per-frame increment is
replaced by exactly `1.0` precisely when it is degenerate in the sense of
being not finite, negative, or *at least* `MIN_TWIST_DELTA`; otherwise
(finite and in `[0, MIN_TWIST_DELTA)`) it is used unchanged. -/
theorem claim_C7_amended (x : Fl) :
    clampTwistDelta x =
      if amendedDegenerateIncrement x = true then Fl.fin 1 else x := by
  cases x with
  | fin q =>
    simp only [clampTwistDelta, amendedDegenerateIncrement, MIN_TWIST_DELTA,
      Fl.fle, Fl.flt, Fl.isFinite, Bool.not_true, Bool.false_or]
    by_cases h0 : (0:ℚ) ≤ q
    · by_cases h1 : q < 1/3
      · simp [decide_eq_true h0, decide_eq_true h1,
          decide_eq_false (not_lt.mpr h0), decide_eq_false (not_le.mpr h1)]
        rw [if_pos (by rw [← one_div]; exact h1),
          if_neg (by rw [← one_div]; exact not_le.mpr h1)]
      · simp [decide_eq_true h0, decide_eq_false h1,
          decide_eq_false (not_lt.mpr h0), decide_eq_true (not_lt.mp h1)]
        rw [if_neg (by rw [← one_div]; exact h1),
          if_pos (by rw [← one_div]; exact not_lt.mp h1)]
    · simp [decide_eq_false h0, decide_eq_true (not_le.mp h0)]
  | pinf => decide
  | ninf => decide
  | nan => decide

/-! ### The move controller (`src/puzzle/controller.rs`)

The controller struct is generic over the `Puzzle` enum and its `Twist`
type, which are defined outside the core source files (only their usage is
visible here); following the spec they are modelled as an abstract
`PuzzleModel` capability record.  Stickers are identified by their index
(`Sticker(i)` wraps an integer in the source), and the out-of-scope
`TwistSelection` is an opaque token. -/

/-- `ScrambleState` from `controller.rs`; the constructors model the Rust
variants `None`, `Partial`, `Full`, `Solved` in order. -/
inductive ScrambleState where
  | none
  | part
  | full
  | solved
deriving DecidableEq

/-- `StickerDecorAnim` from `controller.rs`, its two `f32` fields as exact
rationals. -/
structure StickerDecorAnim where
  selected : ℚ
  hovered : ℚ
deriving DecidableEq

/-- `Default for StickerDecorAnim`: `selected: 1.0, hovered: 0.0`. -/
def StickerDecorAnim.dflt : StickerDecorAnim := ⟨1, 0⟩

/-- Modelled from the spec: the out-of-scope `Puzzle` enum and its `Twist`
companion, reduced to the capabilities the controller uses: a solved initial
state (`Puzzle::new(ty)`), fallible twist application (`Puzzle::twist`
returns a `Result`; §4.4 "fails only if `t` is not defined for this
topology"), twist reversal (`reverse_twist`; §3 "Must support `rev()` (the
inverse twist)"), a solvedness test (`is_solved`), the topology's
full-scramble move count (`scramble_moves_count`) and sticker count. -/
structure PuzzleModel (St Tw : Type) where
  init : St
  applyTwist : St → Tw → Option St
  revT : Tw → Tw
  isSolvedQ : St → Bool
  scrambleMovesCount : ℕ
  stickersCount : ℕ

/-- Modelled from the spec: `InteractionPreferences` (out of scope), reduced
to the two fields `update_geometry` reads. -/
structure InteractionPrefs where
  twist_duration : Fl
  dynamic_twist_speed : Bool

/-- The `PuzzleController` struct from `controller.rs`.  `selection` and
`hovered_sticker` are carried as opaque data (their types are out of scope);
`cached_geometry` only records whether a cached value is present. -/
structure Ctrl (St Tw : Type) where
  displayed : St
  next_displayed : St
  latest : St
  twist_queue : List Tw
  queue_max : ℕ
  progress : Fl
  is_unsaved : Bool
  scramble_state : ScrambleState
  scramble : List Tw
  undo_buffer : List Tw
  redo_buffer : List Tw
  selection : ℕ
  hovered_sticker : Option ℕ
  sticker_animation_states : List StickerDecorAnim
  cached_geometry : Option Unit

section Controller

variable {St Tw : Type} [DecidableEq St] [DecidableEq Tw]

/-- `PuzzleController::new`. -/
def newCtrl (M : PuzzleModel St Tw) : Ctrl St Tw :=
  { displayed := M.init
    next_displayed := M.init
    latest := M.init
    twist_queue := []
    queue_max := 0
    progress := Fl.fin 0
    is_unsaved := false
    scramble_state := ScrambleState.none
    scramble := []
    undo_buffer := []
    redo_buffer := []
    selection := 0
    hovered_sticker := Option.none
    sticker_animation_states := List.replicate M.stickersCount StickerDecorAnim.dflt
    cached_geometry := Option.none }

/-- `PuzzleController::reset`: `*self = Self::new(self.ty())`. -/
def resetC (M : PuzzleModel St Tw) (_ : Ctrl St Tw) : Ctrl St Tw := newCtrl M

/-- Sequential application of a twist list (`Puzzle::twist` for each element,
failing if any application fails). -/
def applyAll (M : PuzzleModel St Tw) (s : St) (ts : List Tw) : Option St :=
  ts.foldlM M.applyTwist s

/-- `PuzzleController::catch_up`: drain the whole queue into `displayed`
(each application `expect`ed to succeed), reset progress, then
`assert_eq!(self.displayed, self.latest)`.  A `none` result models a
panic/failed assertion. -/
def catchUp (M : PuzzleModel St Tw) (c : Ctrl St Tw) : Option (Ctrl St Tw) :=
  (applyAll M c.displayed c.twist_queue).bind (fun d =>
    if d = c.latest then
      some { c with displayed := d, twist_queue := [], progress := Fl.fin 0 }
    else Option.none)

/-- `PuzzleController::undo`.  The `Bool` is the `Result` success flag. -/
def undoC (M : PuzzleModel St Tw) (c : Ctrl St Tw) : Ctrl St Tw × Bool :=
  match c.undo_buffer.getLast? with
  | some t =>
    let c1 := { c with undo_buffer := c.undo_buffer.dropLast, is_unsaved := true }
    match M.applyTwist c1.latest (M.revT t) with
    | some l =>
      ({ c1 with latest := l
                 twist_queue := c1.twist_queue ++ [M.revT t]
                 redo_buffer := c1.redo_buffer ++ [t] }, true)
    | Option.none => (c1, false)
  | Option.none => (c, false)

/-- `PuzzleController::redo`. -/
def redoC (M : PuzzleModel St Tw) (c : Ctrl St Tw) : Ctrl St Tw × Bool :=
  match c.redo_buffer.getLast? with
  | some t =>
    let c1 := { c with redo_buffer := c.redo_buffer.dropLast, is_unsaved := true }
    match M.applyTwist c1.latest t with
    | some l =>
      ({ c1 with latest := l
                 twist_queue := c1.twist_queue ++ [t]
                 undo_buffer := c1.undo_buffer ++ [t] }, true)
    | Option.none => (c1, false)
  | Option.none => (c, false)

/-- `PuzzleController::twist`:
```rust
self.is_unsaved = true;
self.redo_buffer.clear();
if self.undo_buffer.last() == Some(&self.reverse_twist(twist)) {
    self.undo()
} else {
    self.latest.twist(twist.clone())?;
    self.twist_queue.push_back(twist.clone());
    self.undo_buffer.push(twist);
    Ok(())
}
``` -/
def twistC (M : PuzzleModel St Tw) (c : Ctrl St Tw) (t : Tw) : Ctrl St Tw × Bool :=
  let c1 := { c with is_unsaved := true, redo_buffer := [] }
  if c1.undo_buffer.getLast? = some (M.revT t) then undoC M c1
  else
    match M.applyTwist c1.latest t with
    | some l =>
      ({ c1 with latest := l
                 twist_queue := c1.twist_queue ++ [t]
                 undo_buffer := c1.undo_buffer ++ [t] }, true)
    | Option.none => (c1, false)

/-- `PuzzleController::scramble_n`: reset, then the scrambling loop (whose
body is `break` — random twists are not implemented, so it is a no-op), then
`catch_up`, move the undo buffer into `scramble`, and set the scramble state
to `Partial`.  Returns `Ok(())` in the source; `none` models a panic inside
`catch_up`. -/
def scrambleN (M : PuzzleModel St Tw) (c : Ctrl St Tw) (n : ℕ) : Option (Ctrl St Tw) :=
  (catchUp M (resetC M c)).map (fun c2 =>
    { c2 with scramble := c2.undo_buffer
              undo_buffer := []
              scramble_state := ScrambleState.part })

/-- `PuzzleController::scramble_full`: reset, `scramble_n(scramble_moves_count)`,
then set the scramble state to `Full`. -/
def scrambleFull (M : PuzzleModel St Tw) (c : Ctrl St Tw) : Option (Ctrl St Tw) :=
  (scrambleN M (resetC M c) M.scrambleMovesCount).map (fun c2 =>
    { c2 with scramble_state := ScrambleState.full })

/-- `PuzzleController::is_solved`: `self.displayed.is_solved()`. -/
def isSolvedC (M : PuzzleModel St Tw) (c : Ctrl St Tw) : Bool :=
  M.isSolvedQ c.displayed

/-- `PuzzleController::check_just_solved`. -/
def checkJustSolved (M : PuzzleModel St Tw) (c : Ctrl St Tw) : Bool × Ctrl St Tw :=
  if (c.scramble_state = ScrambleState.part ∨ c.scramble_state = ScrambleState.full)
      ∧ isSolvedC M c = true then
    (true, { c with scramble_state := ScrambleState.solved })
  else (false, c)

/-- `PuzzleController::sticker_animation_state`: the body returns the
constant `StickerDecorAnim { selected: 1.0, hovered: 0.0 }` (the
interpolation code after it is commented out behind a `TODO`). -/
def stickerAnimationState (M : PuzzleModel St Tw) (c : Ctrl St Tw)
    (sticker : ℕ) : StickerDecorAnim :=
  { selected := 1, hovered := 0 }

/-- `PuzzleController::update_geometry`.  `expF` abstracts `f32::exp`;
`none` models the `expect`/`unwrap` panics. -/
def updateGeometry (M : PuzzleModel St Tw) (expF : Fl → Fl) (c : Ctrl St Tw)
    (delta : Fl) (prefs : InteractionPrefs) : Option (Ctrl St Tw) :=
  match c.twist_queue with
  | [] => some { c with queue_max := 0 }
  | t :: rest =>
    let qlen := (t :: rest).length
    let c1 := { c with cached_geometry := Option.none
                       queue_max := max c.queue_max qlen }
    let base_speed := Fl.div delta prefs.twist_duration
    let speed_mod := if prefs.dynamic_twist_speed
      then expF (Fl.mul (Fl.fin ((qlen - 1 : ℕ) : ℚ)) EXP_TWIST_FACTOR)
      else Fl.fin 1
    let twist_delta := clampTwistDelta (Fl.mul base_speed speed_mod)
    let prog := Fl.add c1.progress twist_delta
    if Fl.fle (Fl.fin 1) prog = true then
      match M.applyTwist c1.displayed t with
      | some d =>
        some { c1 with displayed := d, twist_queue := rest, progress := Fl.fin 0 }
      | Option.none => Option.none
    else some { c1 with progress := prog }

/-- The controller states reachable from `new` by any sequence of the
operations named in the claims.  Operations that can panic step only
through their successful (`some`) results. -/
inductive ReachC (M : PuzzleModel St Tw) : Ctrl St Tw → Prop where
  | new : ReachC M (newCtrl M)
  | twist (c : Ctrl St Tw) (t : Tw) : ReachC M c → ReachC M (twistC M c t).1
  | undo (c : Ctrl St Tw) : ReachC M c → ReachC M (undoC M c).1
  | redo (c : Ctrl St Tw) : ReachC M c → ReachC M (redoC M c).1
  | scrambleN (c : Ctrl St Tw) (n : ℕ) (c' : Ctrl St Tw) : ReachC M c →
      scrambleN M c n = some c' → ReachC M c'
  | scrambleFull (c : Ctrl St Tw) (c' : Ctrl St Tw) : ReachC M c →
      scrambleFull M c = some c' → ReachC M c'
  | reset (c : Ctrl St Tw) : ReachC M c → ReachC M (resetC M c)
  | updateGeo (expF : Fl → Fl) (c : Ctrl St Tw) (delta : Fl)
      (prefs : InteractionPrefs) (c' : Ctrl St Tw) : ReachC M c →
      updateGeometry M expF c delta prefs = some c' → ReachC M c'
  | catchUp (c : Ctrl St Tw) (c' : Ctrl St Tw) : ReachC M c →
      catchUp M c = some c' → ReachC M c'

end Controller

/-! ### The queue invariant of the controller -/

section ControllerInv

variable {St Tw : Type} [DecidableEq St] [DecidableEq Tw] (M : PuzzleModel St Tw)

/-- The controller's queue invariant: applying every queued twist, in FIFO
order, to `displayed` succeeds and yields `latest`. -/
def invQ (c : Ctrl St Tw) : Prop :=
  applyAll M c.displayed c.twist_queue = some c.latest

lemma applyAll_nil (s : St) : applyAll M s [] = some s := rfl

lemma applyAll_cons (s : St) (t : Tw) (ts : List Tw) :
    applyAll M s (t :: ts) = (M.applyTwist s t).bind (fun x => applyAll M x ts) := rfl

lemma applyAll_append (s : St) (l1 l2 : List Tw) :
    applyAll M s (l1 ++ l2) = (applyAll M s l1).bind (fun x => applyAll M x l2) := by
  induction l1 generalizing s with
  | nil => simp [applyAll_nil]
  | cons t ts ih =>
    rw [List.cons_append, applyAll_cons, applyAll_cons]
    cases M.applyTwist s t with
    | none => rfl
    | some x => simp [ih]

lemma applyAll_single (s : St) (t : Tw) :
    applyAll M s [t] = M.applyTwist s t := by
  rw [applyAll_cons]
  cases M.applyTwist s t <;> rfl

lemma invQ_new : invQ M (newCtrl M) := rfl

lemma invQ_reset (c : Ctrl St Tw) : invQ M (resetC M c) := rfl

lemma invQ_undo {c : Ctrl St Tw} (h : invQ M c) : invQ M (undoC M c).1 := by
  unfold undoC
  cases hlast : c.undo_buffer.getLast? with
  | none => exact h
  | some t =>
    dsimp only []
    cases happ : M.applyTwist c.latest (M.revT t) with
    | none => exact h
    | some l =>
      show applyAll M c.displayed (c.twist_queue ++ [M.revT t]) = some l
      rw [applyAll_append, h]
      simp [applyAll_single, happ]

lemma invQ_redo {c : Ctrl St Tw} (h : invQ M c) : invQ M (redoC M c).1 := by
  unfold redoC
  cases hlast : c.redo_buffer.getLast? with
  | none => exact h
  | some t =>
    dsimp only []
    cases happ : M.applyTwist c.latest t with
    | none => exact h
    | some l =>
      show applyAll M c.displayed (c.twist_queue ++ [t]) = some l
      rw [applyAll_append, h]
      simp [applyAll_single, happ]

lemma invQ_twist {c : Ctrl St Tw} (t : Tw) (h : invQ M c) :
    invQ M (twistC M c t).1 := by
  unfold twistC
  dsimp only []
  by_cases hc : c.undo_buffer.getLast? = some (M.revT t)
  · rw [if_pos hc]
    exact invQ_undo M (show invQ M { c with is_unsaved := true, redo_buffer := [] } from h)
  · rw [if_neg hc]
    cases happ : M.applyTwist c.latest t with
    | none => exact h
    | some l =>
      show applyAll M c.displayed (c.twist_queue ++ [t]) = some l
      rw [applyAll_append, h]
      simp [applyAll_single, happ]

lemma catchUp_eq {c : Ctrl St Tw} (h : invQ M c) :
    catchUp M c =
      some { c with displayed := c.latest
                    twist_queue := []
                    progress := Fl.fin 0 } := by
  unfold catchUp
  rw [h]
  simp

lemma invQ_catchUp {c c' : Ctrl St Tw} (h : invQ M c)
    (hc : catchUp M c = some c') : invQ M c' := by
  rw [catchUp_eq M h] at hc
  cases hc
  exact rfl

lemma invQ_scrambleN {c : Ctrl St Tw} {n : ℕ} {c' : Ctrl St Tw}
    (hc : scrambleN M c n = some c') : invQ M c' := by
  unfold scrambleN at hc
  rw [show resetC M c = newCtrl M from rfl, catchUp_eq M (invQ_new M)] at hc
  simp only [Option.map_some'] at hc
  cases hc
  exact rfl

lemma invQ_scrambleFull {c c' : Ctrl St Tw}
    (hc : scrambleFull M c = some c') : invQ M c' := by
  unfold scrambleFull at hc
  obtain ⟨c2, h2, rfl⟩ := Option.map_eq_some'.mp hc
  have := invQ_scrambleN M h2
  exact this

lemma invQ_updateGeo {expF : Fl → Fl} {c : Ctrl St Tw} {delta : Fl}
    {prefs : InteractionPrefs} {c' : Ctrl St Tw} (h : invQ M c)
    (hc : updateGeometry M expF c delta prefs = some c') : invQ M c' := by
  unfold updateGeometry at hc
  cases hq : c.twist_queue with
  | nil =>
    have h' : applyAll M c.displayed c.twist_queue = some c.latest := h
    rw [hq] at h' hc
    dsimp only [] at hc
    cases hc
    exact h'
  | cons t rest =>
    rw [hq] at hc
    dsimp only [] at hc
    have h2 : (M.applyTwist c.displayed t).bind (fun x => applyAll M x rest)
        = some c.latest := by
      rw [← applyAll_cons, ← hq]
      exact h
    split at hc
    · split at hc
      · split at hc
        · rename_i d happ
          cases hc
          show applyAll M d rest = some c.latest
          rw [happ] at h2
          simpa using h2
        · cases hc
      · cases hc
        show applyAll M c.displayed (t :: rest) = some c.latest
        rw [← hq]
        exact h
    · split at hc
      · split at hc
        · rename_i d happ
          cases hc
          show applyAll M d rest = some c.latest
          rw [happ] at h2
          simpa using h2
        · cases hc
      · cases hc
        show applyAll M c.displayed (t :: rest) = some c.latest
        rw [← hq]
        exact h

/-- The inductive invariant over all reachable controller states. -/
lemma reach_invQ {c : Ctrl St Tw} (h : ReachC M c) : invQ M c := by
  induction h with
  | new => exact invQ_new M
  | twist c t hr ih => exact invQ_twist M t ih
  | undo c hr ih => exact invQ_undo M ih
  | redo c hr ih => exact invQ_redo M ih
  | scrambleN c n c' hr hc ih => exact invQ_scrambleN M hc
  | scrambleFull c c' hr hc ih => exact invQ_scrambleFull M hc
  | reset c hr ih => exact invQ_reset M c
  | updateGeo expF c delta prefs c' hr hc ih => exact invQ_updateGeo M ih hc
  | catchUp c c' hr hc ih => exact invQ_catchUp M ih hc

end ControllerInv

/-! ### Concrete toy instance used for witnesses and counterexamples -/

/-- Concrete instance of the abstract puzzle capabilities: states are
integers (`0` = solved), twist `z` adds `z` and is invalid when `z = 0`
(its application fails), and reversal is negation. -/
def ZM : PuzzleModel ℤ ℤ :=
  { init := 0
    applyTwist := fun s t => if t = 0 then Option.none else some (s + t)
    revT := fun t => -t
    isSolvedQ := fun s => decide (s = 0)
    scrambleMovesCount := 3
    stickersCount := 2 }

/-! ### Claim C1: the queue invariant -/

/-- C1: for every controller state reachable from `new(ty)` by any sequence
of `twist`, `undo`, `redo`, `scramble_n`, `scramble_full`, `reset`,
`update_geometry` and `catch_up` calls, applying the twists of
`twist_queue`, in FIFO order, to the `displayed` puzzle succeeds and yields
the `latest` puzzle. -/
theorem claim_C1_queue_invariant {St Tw : Type} [DecidableEq St] [DecidableEq Tw]
    (M : PuzzleModel St Tw) (c : Ctrl St Tw) (h : ReachC M c) :
    applyAll M c.displayed c.twist_queue = some c.latest :=
  reach_invQ M h

/-- Witness for C1 at the state reached by `twist 2; twist 3` on the toy
instance. -/
theorem claim_C1_queue_invariant_witness :
    applyAll ZM ((twistC ZM (twistC ZM (newCtrl ZM) 2).1 3).1).displayed
        ((twistC ZM (twistC ZM (newCtrl ZM) 2).1 3).1).twist_queue
      = some ((twistC ZM (twistC ZM (newCtrl ZM) 2).1 3).1).latest :=
  claim_C1_queue_invariant ZM _ (ReachC.twist _ 3 (ReachC.twist _ 2 ReachC.new))

/-! ### Claim C4: `catch_up` -/

/-- C4: from every reachable controller state, `catch_up()` succeeds (its
internal `expect`s and the final assertion never fire) and afterwards the
twist queue is empty, the animation progress is `0.0`, and `displayed`
equals `latest` exactly. -/
theorem claim_C4_catch_up {St Tw : Type} [DecidableEq St] [DecidableEq Tw]
    (M : PuzzleModel St Tw) (c : Ctrl St Tw) (h : ReachC M c) :
    ∃ c', catchUp M c = some c' ∧ c'.twist_queue = [] ∧
      c'.progress = Fl.fin 0 ∧ c'.displayed = c'.latest :=
  ⟨_, catchUp_eq M (reach_invQ M h), rfl, rfl, rfl⟩

/-- Witness for C4 at the state reached by `twist 2` on the toy instance. -/
theorem claim_C4_catch_up_witness :
    ∃ c', catchUp ZM (twistC ZM (newCtrl ZM) 2).1 = some c' ∧
      c'.twist_queue = [] ∧ c'.progress = Fl.fin 0 ∧ c'.displayed = c'.latest :=
  claim_C4_catch_up ZM _ (ReachC.twist _ 2 ReachC.new)

/-! ### Claim C10: `sticker_animation_state` -/

/-- C10: `sticker_animation_state(sticker)` returns the constant
`{selected: 1.0, hovered: 0.0}` for every controller state and sticker,
independent of the selection, the hovered sticker and the stored per-sticker
animation values. -/
theorem claim_C10_sticker_animation {St Tw : Type} [DecidableEq St] [DecidableEq Tw]
    (M : PuzzleModel St Tw) (c c' : Ctrl St Tw) (s s' : ℕ) :
    stickerAnimationState M c s = { selected := 1, hovered := 0 } ∧
    stickerAnimationState M c s = stickerAnimationState M c' s' :=
  ⟨rfl, rfl⟩

/-! ### Claim C5: `scramble_n(0)` -/

/-- C5 counterexample: `scramble_n(0)` on a fresh controller leaves the
scramble state `Partial`, not `None` as the claim says. -/
theorem claim_C5_counterexample :
    (scrambleN ZM (newCtrl ZM) 0).map Ctrl.scramble_state
        = some ScrambleState.part ∧
    ScrambleState.part ≠ ScrambleState.none := by
  constructor
  · rfl
  · intro h
    cases h

/-- C5 (amended): `scramble_n(0)` succeeds and leaves the puzzle solved and
the scramble state `Partial`. -/
theorem claim_C5_amended {St Tw : Type} [DecidableEq St] [DecidableEq Tw]
    (M : PuzzleModel St Tw) (c : Ctrl St Tw) (hsol : M.isSolvedQ M.init = true) :
    ∃ c', scrambleN M c 0 = some c' ∧ M.isSolvedQ c'.displayed = true ∧
      M.isSolvedQ c'.latest = true ∧ c'.scramble_state = ScrambleState.part := by
  unfold scrambleN
  rw [show resetC M c = newCtrl M from rfl, catchUp_eq M (invQ_new M)]
  exact ⟨_, rfl, hsol, hsol, rfl⟩

/-- Witness for the amended C5 on the toy instance. -/
theorem claim_C5_amended_witness :
    ∃ c', scrambleN ZM (newCtrl ZM) 0 = some c' ∧
      ZM.isSolvedQ c'.displayed = true ∧ ZM.isSolvedQ c'.latest = true ∧
      c'.scramble_state = ScrambleState.part :=
  claim_C5_amended ZM (newCtrl ZM) (by decide)

/-! ### Claim C2: the behavior of `twist(t)` -/

/-- C2: `twist(t)` marks the controller unsaved in every case and clears the
redo stack first; if the most recent undo-stack entry equals the reverse of
`t`, it performs `undo()` on the so-modified controller instead of pushing;
otherwise it applies `t` to `latest`, enqueues `t` for animation and pushes
it onto the undo stack; and applying a twist `U` on an empty undo stack and
then its inverse `U'` reroutes the second call to `undo`, leaving the undo
buffer empty and `latest` at the pre-`U` state. -/
theorem claim_C2_twist {St Tw : Type} [DecidableEq St] [DecidableEq Tw]
    (M : PuzzleModel St Tw) (c : Ctrl St Tw) (t : Tw) :
    ((twistC M c t).1.is_unsaved = true ∧ (twistC M c t).1.redo_buffer.length ≤ 1) ∧
    (c.undo_buffer.getLast? = some (M.revT t) →
      twistC M c t = undoC M { c with is_unsaved := true, redo_buffer := [] }) ∧
    (c.undo_buffer.getLast? ≠ some (M.revT t) →
      ∀ l, M.applyTwist c.latest t = some l →
        twistC M c t =
          ({ c with is_unsaved := true
                    redo_buffer := []
                    latest := l
                    twist_queue := c.twist_queue ++ [t]
                    undo_buffer := c.undo_buffer ++ [t] }, true)) ∧
    (∀ t' l, c.undo_buffer = [] → M.applyTwist c.latest t = some l →
      M.revT t' = t → M.applyTwist l (M.revT t) = some c.latest →
      (twistC M (twistC M c t).1 t').1.undo_buffer = [] ∧
      (twistC M (twistC M c t).1 t').1.latest = c.latest) := by
  have hmain : ∀ (d : Ctrl St Tw) (u : Tw),
      (twistC M d u).1.is_unsaved = true ∧ (twistC M d u).1.redo_buffer.length ≤ 1 := by
    intro d u
    unfold twistC
    dsimp only []
    by_cases hcond : d.undo_buffer.getLast? = some (M.revT u)
    · rw [if_pos hcond]
      unfold undoC
      dsimp only []
      cases hlast : d.undo_buffer.getLast? with
      | none => exact ⟨rfl, by simp⟩
      | some t0 =>
        dsimp only []
        cases happ : M.applyTwist d.latest (M.revT t0) with
        | none => exact ⟨rfl, by simp⟩
        | some l => exact ⟨rfl, by simp⟩
    · rw [if_neg hcond]
      cases happ : M.applyTwist d.latest u with
      | none => exact ⟨rfl, by simp⟩
      | some l => exact ⟨rfl, by simp⟩
  refine ⟨hmain c t, ?_, ?_, ?_⟩
  · intro hcond
    unfold twistC
    dsimp only []
    rw [if_pos hcond]
  · intro hcond l happ
    unfold twistC
    dsimp only []
    rw [if_neg hcond, happ]
  · intro t' l hbuf happ hrev happ2
    have h1 : twistC M c t =
        ({ c with is_unsaved := true
                  redo_buffer := []
                  latest := l
                  twist_queue := c.twist_queue ++ [t]
                  undo_buffer := c.undo_buffer ++ [t] }, true) := by
      unfold twistC
      dsimp only []
      rw [if_neg (by simp [hbuf]), happ]
    rw [h1]
    dsimp only []
    unfold twistC
    dsimp only []
    have hcnd : (c.undo_buffer ++ [t]).getLast? = some (M.revT t') := by
      simp [hbuf, hrev]
    rw [if_pos hcnd]
    unfold undoC
    dsimp only []
    have hl2 : (c.undo_buffer ++ [t]).getLast? = some t := by simp [hbuf]
    rw [hl2]
    dsimp only []
    rw [happ2]
    dsimp only []
    constructor
    · simp [hbuf]
    · rfl

/-- Witness for C2's scenario part: on the toy instance, `twist 2` then
`twist (-2)` (its inverse) ends with an empty undo buffer and `latest` back
at the initial state. -/
theorem claim_C2_twist_witness :
    (twistC ZM (twistC ZM (newCtrl ZM) 2).1 (-2)).1.undo_buffer = ([] : List ℤ) ∧
    (twistC ZM (twistC ZM (newCtrl ZM) 2).1 (-2)).1.latest = (newCtrl ZM).latest :=
  (claim_C2_twist ZM (newCtrl ZM) 2).2.2.2 (-2) 2 rfl (by decide) (by decide)
    (by decide)

/-! ### Claim C6: error atomicity of `twist(t)` -/

/-- C6 counterexample: on the toy instance, twisting a fresh controller with
the invalid twist `0` returns an error, yet the controller state has changed
(`is_unsaved` flipped from `false` to `true`). -/
theorem claim_C6_counterexample :
    (twistC ZM (newCtrl ZM) 0).2 = false ∧
    (twistC ZM (newCtrl ZM) 0).1 ≠ newCtrl ZM := by
  constructor
  · rfl
  · intro h
    have h2 : (twistC ZM (newCtrl ZM) 0).1.is_unsaved = (newCtrl ZM).is_unsaved := by
      rw [h]
    exact absurd h2 (by decide)

/-- C6 (amended): if `twist(t)` returns an error then `latest`, `displayed`,
the twist queue and the scramble state are unchanged, but the redo stack has
been cleared and the controller marked unsaved regardless; the undo stack is
unchanged on the direct error path, and has lost its last entry when the
call was rerouted to `undo()` and the reverse twist failed to apply. -/
theorem claim_C6_amended {St Tw : Type} [DecidableEq St] [DecidableEq Tw]
    (M : PuzzleModel St Tw) (c : Ctrl St Tw) (t : Tw)
    (herr : (twistC M c t).2 = false) :
    (twistC M c t).1.latest = c.latest ∧
    (twistC M c t).1.displayed = c.displayed ∧
    (twistC M c t).1.twist_queue = c.twist_queue ∧
    (twistC M c t).1.scramble_state = c.scramble_state ∧
    (twistC M c t).1.redo_buffer = [] ∧
    (twistC M c t).1.is_unsaved = true ∧
    (c.undo_buffer.getLast? ≠ some (M.revT t) →
      (twistC M c t).1.undo_buffer = c.undo_buffer) ∧
    (c.undo_buffer.getLast? = some (M.revT t) →
      (twistC M c t).1.undo_buffer = c.undo_buffer.dropLast) := by
  unfold twistC at herr ⊢
  dsimp only [] at herr ⊢
  by_cases hcond : c.undo_buffer.getLast? = some (M.revT t)
  · rw [if_pos hcond] at herr ⊢
    unfold undoC at herr ⊢
    dsimp only [] at herr ⊢
    cases hlast : c.undo_buffer.getLast? with
    | none =>
      rw [hcond] at hlast
      exact Option.noConfusion hlast
    | some t0 =>
      rw [hlast] at herr
      dsimp only [] at herr ⊢
      cases happ : M.applyTwist c.latest (M.revT t0) with
      | some l =>
        rw [happ] at herr
        exact absurd herr (by simp)
      | none =>
        exact ⟨rfl, rfl, rfl, rfl, rfl, rfl,
          fun hne => absurd (hlast.symm.trans hcond) hne, fun _ => rfl⟩
  · rw [if_neg hcond] at herr ⊢
    cases happ : M.applyTwist c.latest t with
    | some l =>
      rw [happ] at herr
      exact absurd herr (by simp)
    | none =>
      exact ⟨rfl, rfl, rfl, rfl, rfl, rfl,
        fun _ => rfl, fun heq => absurd heq hcond⟩

/-- Toy controller whose undo buffer ends in `0`, so that `twist 0` is
rerouted to `undo()` and the reverse twist `-0 = 0` then fails to apply:
the reroute error path of `twist`. -/
def rerouteErrCtrl : Ctrl ℤ ℤ := { newCtrl ZM with undo_buffer := [0] }

/-- Witness for the amended C6 on the reroute error path: `twist 0` on
`rerouteErrCtrl` errors and its undo buffer loses its last entry. -/
theorem claim_C6_amended_witness :
    (twistC ZM rerouteErrCtrl 0).1.latest = rerouteErrCtrl.latest ∧
    (twistC ZM rerouteErrCtrl 0).1.displayed = rerouteErrCtrl.displayed ∧
    (twistC ZM rerouteErrCtrl 0).1.twist_queue = rerouteErrCtrl.twist_queue ∧
    (twistC ZM rerouteErrCtrl 0).1.scramble_state = rerouteErrCtrl.scramble_state ∧
    (twistC ZM rerouteErrCtrl 0).1.redo_buffer = [] ∧
    (twistC ZM rerouteErrCtrl 0).1.is_unsaved = true ∧
    (rerouteErrCtrl.undo_buffer.getLast? ≠ some (ZM.revT 0) →
      (twistC ZM rerouteErrCtrl 0).1.undo_buffer = rerouteErrCtrl.undo_buffer) ∧
    (rerouteErrCtrl.undo_buffer.getLast? = some (ZM.revT 0) →
      (twistC ZM rerouteErrCtrl 0).1.undo_buffer
        = rerouteErrCtrl.undo_buffer.dropLast) :=
  claim_C6_amended ZM rerouteErrCtrl 0 rfl

/-! ### Claim C8: `check_just_solved` -/

section CheckSolved

variable {St Tw : Type} [DecidableEq St] [DecidableEq Tw] (M : PuzzleModel St Tw)

lemma checkJS_true_iff (c : Ctrl St Tw) :
    (checkJustSolved M c).1 = true ↔
      ((c.scramble_state = ScrambleState.part ∨ c.scramble_state = ScrambleState.full)
        ∧ M.isSolvedQ c.displayed = true) := by
  unfold checkJustSolved isSolvedC
  by_cases hcnd : (c.scramble_state = ScrambleState.part
      ∨ c.scramble_state = ScrambleState.full) ∧ M.isSolvedQ c.displayed = true
  · rw [if_pos hcnd]
    simpa using hcnd
  · rw [if_neg hcnd]
    simpa using hcnd

lemma checkJS_true_state (c : Ctrl St Tw) (h : (checkJustSolved M c).1 = true) :
    (checkJustSolved M c).2 = { c with scramble_state := ScrambleState.solved } := by
  unfold checkJustSolved isSolvedC at h ⊢
  by_cases hcnd : (c.scramble_state = ScrambleState.part
      ∨ c.scramble_state = ScrambleState.full) ∧ M.isSolvedQ c.displayed = true
  · rw [if_pos hcnd]
  · rw [if_neg hcnd] at h
    exact absurd h (by simp)

lemma checkJS_false_state (c : Ctrl St Tw) (h : (checkJustSolved M c).1 = false) :
    (checkJustSolved M c).2 = c := by
  unfold checkJustSolved isSolvedC at h ⊢
  by_cases hcnd : (c.scramble_state = ScrambleState.part
      ∨ c.scramble_state = ScrambleState.full) ∧ M.isSolvedQ c.displayed = true
  · rw [if_pos hcnd] at h
    exact absurd h (by simp)
  · rw [if_neg hcnd]

lemma twistC_scr (c : Ctrl St Tw) (t : Tw) :
    (twistC M c t).1.scramble_state = c.scramble_state := by
  unfold twistC undoC
  dsimp only []
  by_cases hcond : c.undo_buffer.getLast? = some (M.revT t)
  · rw [if_pos hcond]
    cases hlast : c.undo_buffer.getLast? with
    | none => rfl
    | some t0 =>
      dsimp only []
      cases happ : M.applyTwist c.latest (M.revT t0) <;> rfl
  · rw [if_neg hcond]
    cases happ : M.applyTwist c.latest t <;> rfl

lemma undoC_scr (c : Ctrl St Tw) :
    (undoC M c).1.scramble_state = c.scramble_state := by
  unfold undoC
  cases hlast : c.undo_buffer.getLast? with
  | none => rfl
  | some t0 =>
    dsimp only []
    cases happ : M.applyTwist c.latest (M.revT t0) <;> rfl

lemma redoC_scr (c : Ctrl St Tw) :
    (redoC M c).1.scramble_state = c.scramble_state := by
  unfold redoC
  cases hlast : c.redo_buffer.getLast? with
  | none => rfl
  | some t0 =>
    dsimp only []
    cases happ : M.applyTwist c.latest t0 <;> rfl

lemma updateGeo_scr {expF : Fl → Fl} {c : Ctrl St Tw} {delta : Fl}
    {prefs : InteractionPrefs} {c' : Ctrl St Tw}
    (hc : updateGeometry M expF c delta prefs = some c') :
    c'.scramble_state = c.scramble_state := by
  unfold updateGeometry at hc
  cases hq : c.twist_queue with
  | nil =>
    rw [hq] at hc
    dsimp only [] at hc
    cases hc
    rfl
  | cons t rest =>
    rw [hq] at hc
    dsimp only [] at hc
    split at hc
    · split at hc
      · split at hc
        · cases hc
          rfl
        · cases hc
      · cases hc
        rfl
    · split at hc
      · split at hc
        · cases hc
          rfl
        · cases hc
      · cases hc
        rfl

lemma catchUp_scr {c c' : Ctrl St Tw} (hc : catchUp M c = some c') :
    c'.scramble_state = c.scramble_state := by
  unfold catchUp at hc
  cases ha : applyAll M c.displayed c.twist_queue with
  | none =>
    rw [ha] at hc
    cases hc
  | some d =>
    rw [ha] at hc
    simp only [Option.some_bind] at hc
    split at hc
    · cases hc
      rfl
    · cases hc

end CheckSolved

/-- The controller calls available between two consecutive scrambles (every
claim-relevant operation except `scramble_n`/`scramble_full`). -/
inductive NSOp (Tw : Type) where
  | twist (t : Tw)
  | undo
  | redo
  | reset
  | updateGeo (expF : Fl → Fl) (delta : Fl) (prefs : InteractionPrefs)
  | catchUpO
  | checkSolved

/-- Execute a list of non-scramble controller calls, counting how many
`check_just_solved` calls returned `true`; `none` models a panic inside
`update_geometry`/`catch_up`. -/
def runNS {St Tw : Type} [DecidableEq St] [DecidableEq Tw] (M : PuzzleModel St Tw) :
    Ctrl St Tw → List (NSOp Tw) → Option (Ctrl St Tw × ℕ)
  | c, [] => some (c, 0)
  | c, NSOp.twist t :: ops => runNS M (twistC M c t).1 ops
  | c, NSOp.undo :: ops => runNS M (undoC M c).1 ops
  | c, NSOp.redo :: ops => runNS M (redoC M c).1 ops
  | c, NSOp.reset :: ops => runNS M (resetC M c) ops
  | c, NSOp.updateGeo expF delta prefs :: ops =>
    (updateGeometry M expF c delta prefs).bind (fun c2 => runNS M c2 ops)
  | c, NSOp.catchUpO :: ops => (catchUp M c).bind (fun c2 => runNS M c2 ops)
  | c, NSOp.checkSolved :: ops =>
    (runNS M (checkJustSolved M c).2 ops).map (fun p =>
      (p.1, p.2 + (if (checkJustSolved M c).1 then 1 else 0)))

lemma runNS_bound {St Tw : Type} [DecidableEq St] [DecidableEq Tw]
    (M : PuzzleModel St Tw) (ops : List (NSOp Tw)) :
    ∀ (c c' : Ctrl St Tw) (n : ℕ), runNS M c ops = some (c', n) →
      n ≤ 1 ∧ ((c.scramble_state ≠ ScrambleState.part ∧
        c.scramble_state ≠ ScrambleState.full) → n = 0) := by
  induction ops with
  | nil =>
    intro c c' n h
    cases h
    exact ⟨by omega, fun _ => rfl⟩
  | cons op ops ih =>
    intro c c' n h
    cases op with
    | twist t =>
      have hh := ih (twistC M c t).1 c' n h
      have hscr := twistC_scr M c t
      exact ⟨hh.1, fun hn => hh.2 (by rw [hscr]; exact hn)⟩
    | undo =>
      have hh := ih (undoC M c).1 c' n h
      have hscr := undoC_scr M c
      exact ⟨hh.1, fun hn => hh.2 (by rw [hscr]; exact hn)⟩
    | redo =>
      have hh := ih (redoC M c).1 c' n h
      have hscr := redoC_scr M c
      exact ⟨hh.1, fun hn => hh.2 (by rw [hscr]; exact hn)⟩
    | reset =>
      have hh := ih (resetC M c) c' n h
      refine ⟨hh.1, fun _ => hh.2 ⟨?_, ?_⟩⟩ <;> intro hx <;>
        exact ScrambleState.noConfusion hx
    | updateGeo expF delta prefs =>
      obtain ⟨c2, hc2, h2⟩ := Option.bind_eq_some.mp h
      have hh := ih c2 c' n h2
      have hscr := updateGeo_scr M hc2
      exact ⟨hh.1, fun hn => hh.2 (by rw [hscr]; exact hn)⟩
    | catchUpO =>
      obtain ⟨c2, hc2, h2⟩ := Option.bind_eq_some.mp h
      have hh := ih c2 c' n h2
      have hscr := catchUp_scr M hc2
      exact ⟨hh.1, fun hn => hh.2 (by rw [hscr]; exact hn)⟩
    | checkSolved =>
      obtain ⟨⟨c2, n2⟩, h2, hmap⟩ := Option.map_eq_some'.mp h
      cases hmap
      by_cases hb : (checkJustSolved M c).1 = true
      · rw [hb]
        have hstate := checkJS_true_state M c hb
        have hh := ih (checkJustSolved M c).2 c2 n2 h2
        have hn2 : n2 = 0 := hh.2 (by
          rw [hstate]
          exact ⟨fun hx => ScrambleState.noConfusion hx,
            fun hx => ScrambleState.noConfusion hx⟩)
        constructor
        · simp [hn2]
        · intro hn
          have hiff := (checkJS_true_iff M c).mp hb
          rcases hiff.1 with h1 | h1
          · exact absurd h1 hn.1
          · exact absurd h1 hn.2
      · have hb' : (checkJustSolved M c).1 = false := by
          cases hcb : (checkJustSolved M c).1
          · rfl
          · exact absurd hcb hb
        rw [hb']
        have hstate := checkJS_false_state M c hb'
        have hh := ih (checkJustSolved M c).2 c2 n2 h2
        rw [hstate] at hh
        constructor
        · simpa using hh.1
        · intro hn
          simpa using hh.2 hn

/-- C8: `check_just_solved()` returns `true` iff the scramble state is
`Partial` or `Full` and the displayed puzzle is solved, in which case it
sets the scramble state to `Solved`; otherwise it returns `false` and
changes nothing; consequently, over any sequence of non-scramble calls it
returns `true` at most once. -/
theorem claim_C8_check_just_solved {St Tw : Type} [DecidableEq St] [DecidableEq Tw]
    (M : PuzzleModel St Tw) (c : Ctrl St Tw) :
    ((checkJustSolved M c).1 = true ↔
      ((c.scramble_state = ScrambleState.part ∨ c.scramble_state = ScrambleState.full)
        ∧ M.isSolvedQ c.displayed = true)) ∧
    ((checkJustSolved M c).1 = true →
      (checkJustSolved M c).2 = { c with scramble_state := ScrambleState.solved }) ∧
    ((checkJustSolved M c).1 = false → (checkJustSolved M c).2 = c) ∧
    (∀ (ops : List (NSOp Tw)) (c' : Ctrl St Tw) (n : ℕ),
      runNS M c ops = some (c', n) → n ≤ 1) :=
  ⟨checkJS_true_iff M c, checkJS_true_state M c, checkJS_false_state M c,
    fun ops c' n h => (runNS_bound M ops c c' n h).1⟩

/-- Witness for C8: starting from a partially-scrambled solved toy
controller, two consecutive `check_just_solved` calls return `true` exactly
once. -/
theorem claim_C8_check_just_solved_witness :
    runNS ZM { newCtrl ZM with scramble_state := ScrambleState.part }
        [NSOp.checkSolved, NSOp.checkSolved]
      = some ({ newCtrl ZM with scramble_state := ScrambleState.solved }, 1) ∧
    (1 : ℕ) ≤ 1 := by
  constructor
  · rfl
  · exact (claim_C8_check_just_solved ZM
      { newCtrl ZM with scramble_state := ScrambleState.part }).2.2.2
      [NSOp.checkSolved, NSOp.checkSolved] _ 1 (by rfl)
